import Mathlib

/-
Shallow embedding of the markov-chain text sampler (markov.py).

Modelling conventions:
* Python's global random number generator is modelled by an oracle
  `o : Nat → ℚ` (the stream of `random.random()` draws, each in `[0,1)`)
  together with an explicit counter `k` of how many draws have been
  consumed; every function that may draw returns the new counter.
  `random.choice(xs)` is modelled as picking the element at index
  `⌊r * len(xs)⌋` for one draw `r`.
* Floats are modelled by exact rationals `ℚ`.
* Python truthiness is modelled explicitly where the source relies on it
  (`if compl:` in `NGramTable.completions` treats the empty-string word
  as false; `END` and nonempty words are truthy).
* A tokenized corpus line is a `List String`; the `END` sentinel becomes
  the `Token.END` constructor.
-/

namespace Markov

/-- Token: an atomic word or the end-of-line sentinel `END`. -/
inductive Token where
  | word (w : String)
  | END
deriving DecidableEq

/-- Truthiness of a token as a Python value: `END` (an `object()`) is truthy,
a word is truthy iff it is a nonempty string. -/
def Token.truthy : Token → Bool
  | Token.word w => w ≠ ""
  | Token.END => true

abbrev Line := List String
abbrev Src := List Line

/-- Python `str.split()` on whitespace, dropping empty chunks
(accumulator holds the current chunk reversed). -/
def wsSplitGo : List Char → List Char → List (List Char)
  | [], acc => if acc.isEmpty then [] else [acc.reverse]
  | c :: cs, acc =>
    if c = ' ' ∨ c = '\t' ∨ c = '\n' ∨ c = '\r' then
      (if acc.isEmpty then wsSplitGo cs [] else acc.reverse :: wsSplitGo cs [])
    else wsSplitGo cs (c :: acc)

/-- Python `str.split()` (no separator argument). -/
def pySplit (st : String) : List String :=
  (wsSplitGo st.toList []).map (fun l => String.mk l)

/-- Loc: a word in the text identified by its source, line and index therein. -/
structure Loc where
  source : Src
  line_idx : Nat
  idx : Nat
deriving DecidableEq

/-- Loc.line property: the tokenized line this location points into. -/
def Loc.line (l : Loc) : Line := l.source.getD l.line_idx []

/-- Loc.word property: the word at this location. -/
def Loc.word (l : Loc) : String := l.line.getD l.idx ""

/-- Loc.words: the `n` words of the line starting at this location
(shorter if the line ends), as tokens. -/
def Loc.words (l : Loc) (n : Nat) : List Token :=
  ((l.line.drop l.idx).take n).map Token.word

/-- Loc.match: true iff `ws` start at this loc (named `matches`
because `match` is a Lean keyword). -/
def Loc.matches (l : Loc) (ws : List Token) : Bool :=
  ws == l.words ws.length

/-- Loc.next_word: the token after `start`, assuming `start` begins at this
loc; `END` at the end of the line, `none` when `start` does not begin here. -/
def Loc.next_word (l : Loc) (start : List Token) : Option Token :=
  let end_idx := l.idx + start.length
  if l.matches start then
    some (if end_idx < l.line.length then Token.word (l.line.getD end_idx "") else Token.END)
  else none

/-- Loc.start_of_next_line: the first location of the following line,
or `none` on the source's final line. -/
def Loc.start_of_next_line (l : Loc) : Option Loc :=
  if l.line_idx + 1 < l.source.length then some ⟨l.source, l.line_idx + 1, 0⟩ else none

/-- NGram: a happy ngram and its metadata. -/
structure NGram where
  words : List Token
  count : ℚ
  loc : Loc
deriving DecidableEq

/-- NGram.from_loc: the ngram of (up to) `n` tokens starting at `loc`, with
`END` appended past the line end, and count 1. -/
def NGram.from_loc (n : Nat) (l : Loc) : NGram :=
  ⟨((l.line.map Token.word ++ [Token.END]).drop l.idx).take n, 1, l⟩

/-- NGram.merge: sum the counts, keep the representative location of the
strictly larger-count side (ties favor the second operand). -/
def NGram.merge (a b : NGram) : NGram :=
  if b.count < a.count then ⟨a.words, a.count + b.count, a.loc⟩
  else ⟨b.words, a.count + b.count, b.loc⟩

/-- NGram.empty: the neutral ngram used by the accumulation map. -/
def NGram.empty : NGram := ⟨[], 0, ⟨[], 0, 0⟩⟩

/-- NGram.compl property: the last token of the ngram (its completion). -/
def NGram.compl (g : NGram) : Token := g.words.getLastD Token.END

/-- Word strings of a token list; `none` if a sentinel is among them
(joining such a list would be a type error in the source). -/
def wordStrings : List Token → Option (List String)
  | [] => some []
  | Token.word w :: ts => (wordStrings ts).map (fun ws => w :: ws)
  | Token.END :: _ => none

/-- Join a token list with single spaces, as `" ".join(words)`. -/
def joinTokens (ts : List Token) : Option String :=
  (wordStrings ts).map (String.intercalate " ")

/-- NGram.text property: the words joined by spaces, a trailing `END` dropped. -/
def NGram.text (g : NGram) : Option String :=
  let ws := if g.words.getLast? = some Token.END then g.words.dropLast else g.words
  joinTokens ws

/-- NGramTable: a table for completing n-grams, owning the tokenized sources. -/
structure NGramTable where
  sources : List Src
deriving DecidableEq

/-- Build a table by `add_source` for each given source:
each raw line is tokenized by whitespace. -/
def mkTable (srcs : List (List String)) : NGramTable :=
  ⟨srcs.map (fun lines => lines.map pySplit)⟩

/-- All word locations of the table, in source/line/index enumeration order. -/
def NGramTable.allLocs (t : NGramTable) : List Loc :=
  (t.sources.map (fun src =>
    ((List.range src.length).map (fun li =>
      (List.range (src.getD li []).length).map (fun i => (⟨src, li, i⟩ : Loc)))).foldr
      (fun a b => a ++ b) [])).foldr (fun a b => a ++ b) []

/-- The location list `self._locs[tok]`: the grouped inverted index keyed by
word (in encounter order); `END` is never a key. -/
def NGramTable.locsFor (t : NGramTable) (tok : Token) : List Loc :=
  match tok with
  | Token.word w => t.allLocs.filter (fun l => l.word == w)
  | Token.END => []

/-- num_lines property: total number of lines over all sources. -/
def NGramTable.num_lines (t : NGramTable) : Nat :=
  (t.sources.map List.length).sum

/-- Association-list lookup for the completion map. -/
def alLookup (m : List (Token × NGram)) (c : Token) : Option NGram :=
  match m with
  | [] => none
  | (c', g) :: rest => if c' == c then some g else alLookup rest c

/-- The defaultdict update `ret[compl] = ret[compl].merge(g)`: merge into the
existing entry, or append a new entry merged into `NGram.empty`. -/
def alMergeIn (m : List (Token × NGram)) (c : Token) (g : NGram) : List (Token × NGram) :=
  match m with
  | [] => [(c, NGram.empty.merge g)]
  | (c', g') :: rest =>
    if c' == c then (c', g'.merge g) :: rest else (c', g') :: alMergeIn rest c g

/-- NGramTable.completions: all n-gram completions of the given words, as the
insertion-ordered map `{compl : ngram}`.  Mirrors the source: iterate the
locations of `start[0]`, and for each truthy `next_word` merge a fresh
`(len(start)+1)`-gram into the map. -/
def NGramTable.completions (t : NGramTable) (start : List Token) : List (Token × NGram) :=
  match start with
  | [] => []
  | s0 :: _ =>
    (t.locsFor s0).foldl
      (fun ret l =>
        match l.next_word start with
        | some c => if c.truthy then alMergeIn ret c (NGram.from_loc (start.length + 1) l) else ret
        | none => ret)
      []

/-- Sum of the counts of a completion map (the `freq_sum` of the source). -/
def totalCount (cs : List (Token × NGram)) : ℚ :=
  (cs.map (fun p => p.2.count)).sum

/-- NGramTable.normalized_completions: completions with relative frequencies
accumulating to 1; the empty map when the count sum is zero. -/
def NGramTable.normalized_completions (t : NGramTable) (start : List Token) :
    List (Token × ℚ) :=
  let cs := t.completions start
  let fs := totalCount cs
  if fs = 0 then [] else cs.map (fun p => (p.1, p.2.count / fs))

/-- Lookup in a frequency map with default 0, as `disfavor.get(word, 0)`. -/
def dget (m : List (Token × ℚ)) (c : Token) : ℚ :=
  match m with
  | [] => 0
  | (c', q) :: rest => if c' == c then q else dget rest c

/-- Model of `random.choice(xs)`: the element at index `⌊r * len(xs)⌋`
for one uniform draw `r`, with a default for the (raising) empty case. -/
def pyChoice {α : Type} (xs : List α) (r : ℚ) (dflt : α) : α :=
  xs.getD (Rat.floor (r * xs.length)).toNat dflt

/-- The list of line-start locations used by `get_start_gram`. -/
def NGramTable.lineStarts (t : NGramTable) : List Loc :=
  (t.sources.map (fun src =>
    (List.range src.length).map (fun li => (⟨src, li, 0⟩ : Loc)))).foldr
    (fun a b => a ++ b) []

/-- NGramTable.get_start_gram: a random n-gram starting a line, its count
replaced by `1 / num_lines`; consumes one draw. -/
def NGramTable.get_start_gram (t : NGramTable) (n : Nat) (o : Nat → ℚ) (k : Nat) :
    NGram × Nat :=
  let l := pyChoice t.lineStarts (o k) ⟨[], 0, 0⟩
  let g := NGram.from_loc n l
  (⟨g.words, 1 / (t.num_lines : ℚ), g.loc⟩, k + 1)

/-- NGramTable.ngrams: all NGram objects with the specified words, in
location order. -/
def NGramTable.ngrams (t : NGramTable) (ws : List Token) : List NGram :=
  match ws with
  | [] => []
  | w0 :: _ =>
    ((t.locsFor w0).map (fun l => NGram.from_loc ws.length l)).filter
      (fun g => g.words == ws)

/-- The subtraction walk of `weighted_random_item`: subtract each weight from
`c` and return the first item driving it negative (with probability
`weight/S`), or `none` if the walk finishes non-negative. -/
def wriGo {α : Type} (w : α → ℚ) (S : ℚ) : List α → ℚ → Option (α × ℚ)
  | [], _ => none
  | x :: xs, c =>
    let c' := c - w x
    if c' < 0 then some (x, w x / S) else wriGo w S xs c'

/-- weighted_random_item: a random item and its probability, with items
weighted by a weight function; `none` for empty lists or non-positive weight
sums; the last item with sentinel probability `-1` on the degenerate
rounding case. -/
def weighted_random_item {α : Type} (items : List α) (w : α → ℚ) (o : Nat → ℚ) (k : Nat) :
    Option (α × ℚ) × Nat :=
  match items with
  | [] => (none, k)
  | x :: xs =>
    let S := ((x :: xs).map w).sum
    if S ≤ 0 then (none, k)
    else
      match wriGo w S (x :: xs) (o k * S) with
      | some p => (some p, k + 1)
      | none => (some ((x :: xs).getLastD x, -1), k + 1)

/-- suffix: the last `n` items (all of them if there are at most `n`). -/
def suffix {α : Type} (n : Nat) (items : List α) : List α :=
  if items.length ≤ n then items else items.drop (items.length - n)

/-- MarkovSampler: a very customized markov chain sampler;
construction stores the order and table unvalidated. -/
structure MarkovSampler where
  n : Int
  table : NGramTable

/-- MarkovSampler.sample: a random valid completion of the given word list;
with `try_end`, a present `END` completion is returned immediately with
count 1; otherwise a weighted draw with `disfavor` penalties, the count
replaced by the sample probability. -/
def MarkovSampler.sample (s : MarkovSampler) (start : List Token) (tryEnd : Bool)
    (disfavor : List (Token × ℚ)) (o : Nat → ℚ) (k : Nat) : Option NGram × Nat :=
  let cs := s.table.completions start
  match (if tryEnd then alLookup cs Token.END else none) with
  | some g => (some ⟨g.words, 1, g.loc⟩, k)
  | none =>
    match weighted_random_item (cs.map Prod.fst)
        (fun tok => ((alLookup cs tok).getD NGram.empty).count * (1 - dget disfavor tok))
        o k with
    | (none, k') => (none, k')
    | (some (tok, p), k') =>
      let g := (alLookup cs tok).getD NGram.empty
      (some ⟨g.words, p, g.loc⟩, k')

/-- The `try_end` argument of the sampling step: `i >= max_len` for loop
iteration index `i`. -/
def tryEndArg (i : Nat) (maxLen : Int) : Bool := decide (maxLen ≤ (i : Int))

/-- The context lengths attempted by one extension step:
`range(n-1, 0, -1)`, that is `[n-1, n-2, ..., 1]`. -/
def fallbackKs (n : Nat) : List Nat := (List.range' 1 (n - 1)).reverse

/-- The per-step disfavor map: normalized completions of the length-`n`
suffix when the text has at least `n` tokens, else empty. -/
def stepDisfavor (t : NGramTable) (n : Nat) (text : List Token) : List (Token × ℚ) :=
  if n ≤ text.length then t.normalized_completions (suffix n text) else []

/-- The inner fallback loop of one extension step: try `sample` at each
context length in `ks`, stopping at the first that yields a token. -/
def trySample (s : MarkovSampler) (ks : List Nat) (text : List Token) (tryEnd : Bool)
    (disf : List (Token × ℚ)) (o : Nat → ℚ) (k : Nat) : Option NGram × Nat :=
  match ks with
  | [] => (none, k)
  | k0 :: rest =>
    match s.sample (suffix k0 text) tryEnd disf o k with
    | (some g, k') => (some g, k')
    | (none, k') => trySample s rest text tryEnd disf o k'

/-- The effective order of a generation run: `max(min(n, max_len-1), 2)`. -/
def effOrder (n maxLen : Int) : Int := max (min n (maxLen - 1)) 2

/-- The generation loop of `sample_many`: up to `fuel` extension steps
(`fuel = 5*max_len`), breaking on a dead end or a sampled `END`. -/
def smLoop (s : MarkovSampler) (n : Nat) (maxLen : Int) (startToks : List Token)
    (o : Nat → ℚ) :
    Nat → Nat → List Token → List NGram → Nat → (List Token × List NGram) × Nat
  | 0, _, compls, ngrams, k => ((compls, ngrams), k)
  | fuel + 1, i, compls, ngrams, k =>
    let text := startToks ++ compls
    let disf := stepDisfavor s.table n text
    match trySample s (fallbackKs n) text (tryEndArg i maxLen) disf o k with
    | (none, k') => ((compls, ngrams), k')
    | (some g, k') =>
      if g.compl = Token.END then ((compls, ngrams ++ [g]), k')
      else smLoop s n maxLen startToks o fuel (i + 1) (compls ++ [g.compl]) (ngrams ++ [g]) k'

/-- MarkovSampler.sample_many: completes the given text with random n-grams,
falling back to smaller context lengths, stopping on `END`, a dead end, or
the `5*max_len` cap. -/
def MarkovSampler.sample_many (s : MarkovSampler) (start : String) (maxLen : Int)
    (o : Nat → ℚ) (k : Nat) : (List Token × List NGram) × Nat :=
  let n := (effOrder s.n maxLen).toNat
  match (pySplit start).map Token.word with
  | st0 :: st => smLoop s n maxLen (st0 :: st) o (5 * maxLen).toNat 0 [] [] k
  | [] =>
    let gk := s.table.get_start_gram n o k
    smLoop s n maxLen [] o (5 * maxLen).toNat 0 gk.1.words [gk.1] gk.2

/-- The fixed fallback phrase returned when every trial is discarded. -/
def FALLBACK : String := "LOOK BEHIND YOU A THREE-HEADED MONKEY"

/-- Run `sample_many` the given number of times, threading the draw counter. -/
def runTrials (s : MarkovSampler) (start : String) (maxLen : Int) (o : Nat → ℚ) :
    Nat → Nat → List (List Token × List NGram) × Nat
  | 0, k => ([], k)
  | times + 1, k =>
    let rk := s.sample_many start maxLen o k
    let rest := runTrials s start maxLen o times rk.2
    (rk.1 :: rest.1, rest.2)

/-- Python `min(..., key=f)`: the first element attaining the least key. -/
def pyMinBy {α : Type} (f : α → Nat) : α → List α → α
  | best, [] => best
  | best, x :: xs => if f x < f best then pyMinBy f x xs else pyMinBy f best xs

/-- The selection key of `sample_best`: `abs(len(sample[0]) - max_len)`. -/
def sbKey (maxLen : Int) (sm : List Token × List NGram) : Nat :=
  ((sm.1.length : Int) - maxLen).natAbs

/-- MarkovSampler.sample_best: invoke `sample_many` `times` times, drop the
trials with an empty ngram list, and return the first surviving output whose
token length is closest to `max_len` (the fallback phrase if none survives),
the raw start string prepended to the joined text when nonempty. -/
def MarkovSampler.sample_best (s : MarkovSampler) (start : String) (maxLen : Int)
    (times : Nat) (o : Nat → ℚ) (k : Nat) : (Option String × List NGram) × Nat :=
  let tk := runTrials s start maxLen o times k
  let survivors := tk.1.filter (fun sm => !sm.2.isEmpty)
  let best :=
    match survivors with
    | [] => ([Token.word FALLBACK], ([] : List NGram))
    | sv0 :: rest => pyMinBy (sbKey maxLen) sv0 rest
  let pieces := if start = "" then best.1 else Token.word start :: best.1
  ((joinTokens pieces, best.2), tk.2)

/-- Python `range(hi, lo - 1, -1)`: `[hi, hi-1, ..., lo]` (empty if `hi < lo`). -/
def rangeDown (hi lo : Int) : List Int :=
  if hi < lo then [] else (List.range ((hi - lo).toNat + 1)).map (fun j => hi - j)

/-- Python slice `q[-n:]` for the question suffix lookup. -/
def pyLastN (n : Int) (xs : List Token) : List Token :=
  if 0 < n then (if xs.length ≤ n.toNat then xs else xs.drop (xs.length - n.toNat))
  else if n = 0 then xs
  else xs.drop (-n).toNat

/-- The search loop of `sample_answer`: for each suffix length, when matches
exist pick one at random; continue from the next line when there is one,
otherwise fall through to the next (smaller) length. -/
def saLoop (s : MarkovSampler) (q : List Token) (maxLen : Int) (times : Nat)
    (o : Nat → ℚ) : List Int → Nat → Option (Option String × List NGram) × Nat
  | [], k => (none, k)
  | L :: rest, k =>
    match s.table.ngrams (pyLastN L q) with
    | [] => saLoop s q maxLen times o rest k
    | g0 :: gs =>
      let g := pyChoice (g0 :: gs) (o k) g0
      match g.loc.start_of_next_line with
      | none => saLoop s q maxLen times o rest (k + 1)
      | some nl =>
        let ng := NGram.from_loc s.n.toNat nl
        match ng.text with
        | none => (none, k + 1)
        | some st =>
          let bk := s.sample_best st maxLen times o (k + 1)
          (some (bk.1.1, g :: ng :: bk.1.2), bk.2)

/-- MarkovSampler.sample_answer: append `END` to the tokenized question and
search trailing subsequences of length `n+1` down to `min_prefix`. -/
def MarkovSampler.sample_answer (s : MarkovSampler) (question : String) (maxLen : Int)
    (times : Nat) (minPre : Int) (o : Nat → ℚ) (k : Nat) :
    Option (Option String × List NGram) × Nat :=
  let q := (pySplit question).map Token.word ++ [Token.END]
  saLoop s q maxLen times o (rangeDown (s.n + 1) minPre) k

/-- Count of a completion token in a completion map (0 when absent,
matching the defaultdict semantics). -/
def countOf (m : List (Token × NGram)) (c : Token) : ℚ :=
  ((alLookup m c).getD NGram.empty).count

/-- No line of the table contains the empty-string word (true of every
corpus built by `add_source`, whose words come from `str.split()`). -/
def NoEmptyWords (t : NGramTable) : Prop :=
  ∀ src ∈ t.sources, ∀ line ∈ src, ∀ w ∈ line, w ≠ ""

instance (t : NGramTable) : Decidable (NoEmptyWords t) := by
  unfold NoEmptyWords; infer_instance

/-- Modelled from the claim wording of C3 (spec §4.3): the variant of the
generation loop whose `try_end` flag is set exactly when the running length
of the generated sequence (seed plus produced tokens) has reached
`max_len`, instead of the iteration count.  Used only to compare against
`smLoop`. -/
def smLoopLenFlag (s : MarkovSampler) (n : Nat) (maxLen : Int) (startToks : List Token)
    (o : Nat → ℚ) :
    Nat → Nat → List Token → List NGram → Nat → (List Token × List NGram) × Nat
  | 0, _, compls, ngrams, k => ((compls, ngrams), k)
  | fuel + 1, i, compls, ngrams, k =>
    let text := startToks ++ compls
    let disf := stepDisfavor s.table n text
    match trySample s (fallbackKs n) text (decide (maxLen ≤ (text.length : Int))) disf o k with
    | (none, k') => ((compls, ngrams), k')
    | (some g, k') =>
      if g.compl = Token.END then ((compls, ngrams ++ [g]), k')
      else smLoopLenFlag s n maxLen startToks o fuel (i + 1) (compls ++ [g.compl]) (ngrams ++ [g]) k'

/-- Modelled from the claim wording of C3: `sample_many` with the
running-length `try_end` flag of `smLoopLenFlag`. -/
def sampleManyLenFlag (s : MarkovSampler) (start : String) (maxLen : Int)
    (o : Nat → ℚ) (k : Nat) : (List Token × List NGram) × Nat :=
  let n := (effOrder s.n maxLen).toNat
  match (pySplit start).map Token.word with
  | st0 :: st => smLoopLenFlag s n maxLen (st0 :: st) o (5 * maxLen).toNat 0 [] [] k
  | [] =>
    let gk := s.table.get_start_gram n o k
    smLoopLenFlag s n maxLen [] o (5 * maxLen).toNat 0 gk.1.words [gk.1] gk.2

/-- The all-zero random oracle used for concrete runs. -/
def o0 : Nat → ℚ := fun _ => 0

/-- The fox corpus of the spec's examples: one source, one line. -/
def foxT : NGramTable := mkTable [["fox fox fox. fox fox"]]

/- Helper lemmas -/

theorem NGram.merge_count (a b : NGram) : (a.merge b).count = a.count + b.count := by
  unfold NGram.merge; split <;> rfl

theorem alLookup_alMergeIn_self (m : List (Token × NGram)) (c : Token) (g : NGram) :
    alLookup (alMergeIn m c g) c = some (((alLookup m c).getD NGram.empty).merge g) := by
  induction m with
  | nil => simp [alMergeIn, alLookup]
  | cons p rest ih =>
    obtain ⟨c', g'⟩ := p
    by_cases h : c' = c
    · subst h; simp [alMergeIn, alLookup]
    · simp [alMergeIn, alLookup, h, ih]

theorem alLookup_alMergeIn_ne (m : List (Token × NGram)) (c c' : Token) (g : NGram)
    (h : c ≠ c') : alLookup (alMergeIn m c g) c' = alLookup m c' := by
  induction m with
  | nil => simp [alMergeIn, alLookup, h]
  | cons p rest ih =>
    obtain ⟨c'', g''⟩ := p
    by_cases h2 : c'' = c
    · subst h2; simp [alMergeIn, alLookup, h, Ne.symm h]
    · by_cases h3 : c'' = c'
      · subst h3; simp [alMergeIn, alLookup, h2]
      · simp [alMergeIn, alLookup, h2, h3, ih]

theorem countOf_alMergeIn_self (m : List (Token × NGram)) (c : Token) (g : NGram) :
    countOf (alMergeIn m c g) c = countOf m c + g.count := by
  unfold countOf
  rw [alLookup_alMergeIn_self]
  simp [NGram.merge_count]

theorem countOf_alMergeIn_ne (m : List (Token × NGram)) (c c' : Token) (g : NGram)
    (h : c ≠ c') : countOf (alMergeIn m c g) c' = countOf m c' := by
  unfold countOf; rw [alLookup_alMergeIn_ne m c c' g h]

theorem totalCount_alMergeIn (m : List (Token × NGram)) (c : Token) (g : NGram) :
    totalCount (alMergeIn m c g) = totalCount m + g.count := by
  induction m with
  | nil => simp [alMergeIn, totalCount, NGram.merge_count, NGram.empty]
  | cons p rest ih =>
    obtain ⟨c', g'⟩ := p
    by_cases h : c' = c
    · subst h; simp [alMergeIn, totalCount, NGram.merge_count]; ring
    · simp [alMergeIn, totalCount, h] at ih ⊢
      rw [ih]; ring

theorem getD_headD_drop (xs : List String) (i : Nat) :
    xs.getD i "" = (xs.drop i).headD "" := by
  induction xs generalizing i with
  | nil => simp
  | cons x xs ih => cases i with | zero => simp | succ j => exact ih j

theorem words_head {l : Loc} {n : Nat} {w : String} {ts : List Token}
    (h : l.words (n + 1) = Token.word w :: ts) : l.word = w := by
  unfold Loc.words at h
  rcases hd : l.line.drop l.idx with _ | ⟨x, rest⟩
  · rw [hd] at h; simp at h
  · rw [hd] at h
    simp only [List.take_succ_cons, List.map_cons, List.cons.injEq, Token.word.injEq] at h
    unfold Loc.word
    rw [getD_headD_drop, hd]
    simpa using h.1

theorem next_word_word_head {l : Loc} {w : String} {rest : List Token} {c : Token}
    (h : l.next_word (Token.word w :: rest) = some c) : l.word = w := by
  unfold Loc.next_word at h
  by_cases hm : l.matches (Token.word w :: rest)
  · unfold Loc.matches at hm
    rw [beq_iff_eq] at hm
    exact words_head (n := rest.length) hm.symm
  · simp [hm] at h

theorem next_word_END_head {l : Loc} {rest : List Token} :
    l.next_word (Token.END :: rest) = none := by
  have hne : ∀ (xs : List String), (Token.END :: rest) ≠ xs.map Token.word := by
    intro xs hx; cases xs <;> simp at hx
  have hm : l.matches (Token.END :: rest) = false := by
    unfold Loc.matches Loc.words
    rw [beq_eq_false_iff_ne]
    exact hne _
  unfold Loc.next_word
  simp [hm]

theorem from_loc_count (n : Nat) (l : Loc) : (NGram.from_loc n l).count = 1 := rfl

theorem countOf_completions_foldl (start : List Token) (c : Token) (hc : c.truthy = true) :
    ∀ (locs : List Loc) (m : List (Token × NGram)),
      countOf (locs.foldl (fun ret l =>
          match l.next_word start with
          | some cc =>
            if cc.truthy then alMergeIn ret cc (NGram.from_loc (start.length + 1) l) else ret
          | none => ret) m) c
        = countOf m c + ((locs.filter (fun l => l.next_word start == some c)).length : ℚ) := by
  intro locs
  induction locs with
  | nil => intro m; simp
  | cons l ls ih =>
    intro m
    rcases h : l.next_word start with _ | cc
    · simp only [List.foldl_cons, List.filter_cons, h]
      rw [ih]
      simp
    · simp only [List.foldl_cons, List.filter_cons, h]
      by_cases ht : cc.truthy = true
      · rw [if_pos ht]
        by_cases hcc : cc = c
        · subst hcc
          rw [ih, countOf_alMergeIn_self, from_loc_count]
          have hcond : (some cc == some cc) = true := by simp
          rw [if_pos hcond, List.length_cons]
          push_cast
          ring
        · rw [ih, countOf_alMergeIn_ne _ _ _ _ hcc]
          simp [hcc]
      · rw [if_neg ht]
        have hne : cc ≠ c := by intro he; rw [he] at ht; exact ht hc
        rw [ih]
        simp [hne]

theorem totalCount_completions_foldl (start : List Token) :
    ∀ (locs : List Loc) (m : List (Token × NGram)),
      totalCount (locs.foldl (fun ret l =>
          match l.next_word start with
          | some cc =>
            if cc.truthy then alMergeIn ret cc (NGram.from_loc (start.length + 1) l) else ret
          | none => ret) m)
        = totalCount m
          + ((locs.filter (fun l =>
              ((l.next_word start).map Token.truthy).getD false)).length : ℚ) := by
  intro locs
  induction locs with
  | nil => intro m; simp
  | cons l ls ih =>
    intro m
    rcases h : l.next_word start with _ | cc
    · simp only [List.foldl_cons, List.filter_cons, h]
      rw [ih]
      simp
    · simp only [List.foldl_cons, List.filter_cons, h]
      by_cases ht : cc.truthy = true
      · rw [if_pos ht, ih, totalCount_alMergeIn, from_loc_count]
        have hcond : ((some cc).map Token.truthy).getD false = true := by simp [ht]
        rw [if_pos hcond]
        simp only [List.length_cons]
        push_cast
        ring
      · rw [if_neg ht, ih]
        simp [ht]

theorem alMergeIn_count_ge (m : List (Token × NGram)) (c : Token) (g : NGram)
    (hm : ∀ p ∈ m, 1 ≤ p.2.count) (hg : 1 ≤ g.count) :
    ∀ p ∈ alMergeIn m c g, 1 ≤ p.2.count := by
  induction m with
  | nil =>
    intro p hp
    simp [alMergeIn] at hp
    subst hp
    simpa [NGram.merge_count, NGram.empty] using hg
  | cons q rest ih =>
    obtain ⟨c', g'⟩ := q
    intro p hp
    by_cases h : c' = c
    · subst h
      simp [alMergeIn] at hp
      rcases hp with hp | hp
      · subst hp
        have h1 := hm (c', g') (by simp)
        simp only [NGram.merge_count]
        calc (1 : ℚ) ≤ g'.count := h1
          _ ≤ g'.count + g.count := by linarith
      · exact hm p (by simp [hp])
    · simp [alMergeIn, h] at hp
      rcases hp with hp | hp
      · subst hp; exact hm (c', g') (by simp)
      · exact ih (fun q hq => hm q (by simp [hq])) p hp

theorem completions_foldl_count_ge (start : List Token) :
    ∀ (locs : List Loc) (m : List (Token × NGram)), (∀ p ∈ m, 1 ≤ p.2.count) →
      ∀ p ∈ (locs.foldl (fun ret l =>
          match l.next_word start with
          | some cc =>
            if cc.truthy then alMergeIn ret cc (NGram.from_loc (start.length + 1) l) else ret
          | none => ret) m), 1 ≤ p.2.count := by
  intro locs
  induction locs with
  | nil => intro m hm; exact hm
  | cons l ls ih =>
    intro m hm
    rcases h : l.next_word start with _ | cc
    · simp only [List.foldl_cons, h]
      exact ih m hm
    · simp only [List.foldl_cons, h]
      by_cases ht : cc.truthy = true
      · rw [if_pos ht]
        exact ih _ (alMergeIn_count_ge m cc _ hm (by rw [from_loc_count]))
      · rw [if_neg ht]
        exact ih m hm

theorem mem_catAppend {α : Type} (ls : List (List α)) (a : α) :
    a ∈ ls.foldr (fun u v => u ++ v) [] ↔ ∃ u ∈ ls, a ∈ u := by
  induction ls with
  | nil => simp
  | cons u us ih => simp [List.mem_append, ih]

theorem allLocs_spec (t : NGramTable) :
    ∀ l ∈ t.allLocs, l.source ∈ t.sources ∧ l.line_idx < l.source.length ∧ l.idx < l.line.length := by
  intro l hl
  unfold NGramTable.allLocs at hl
  rw [mem_catAppend] at hl
  obtain ⟨u, hu, hlu⟩ := hl
  rw [List.mem_map] at hu
  obtain ⟨src, hsrc, rfl⟩ := hu
  rw [mem_catAppend] at hlu
  obtain ⟨v, hv, hlv⟩ := hlu
  rw [List.mem_map] at hv
  obtain ⟨li, hli, rfl⟩ := hv
  rw [List.mem_range] at hli
  rw [List.mem_map] at hlv
  obtain ⟨i, hi, rfl⟩ := hlv
  rw [List.mem_range] at hi
  exact ⟨hsrc, hli, by simpa [Loc.line] using hi⟩

theorem next_word_truthy {t : NGramTable} (hne : NoEmptyWords t) {l : Loc}
    (hl : l ∈ t.allLocs) {start : List Token} {c : Token}
    (h : l.next_word start = some c) : c.truthy = true := by
  obtain ⟨hsrc, hli, _⟩ := allLocs_spec t l hl
  unfold Loc.next_word at h
  by_cases hm : l.matches start
  · rw [if_pos hm] at h
    by_cases hlt : l.idx + start.length < l.line.length
    · rw [if_pos hlt] at h
      obtain rfl : Token.word (l.line.getD (l.idx + start.length) "") = c := by
        injection h
      have hmem : l.line.getD (l.idx + start.length) "" ∈ l.line := by
        rw [List.getD_eq_getElem l.line "" hlt]
        exact List.getElem_mem hlt
      have hlinemem : l.line ∈ l.source := by
        unfold Loc.line
        rw [List.getD_eq_getElem l.source [] hli]
        exact List.getElem_mem hli
      have := hne l.source hsrc l.line hlinemem _ hmem
      simpa [Token.truthy] using this
    · rw [if_neg hlt] at h
      obtain rfl : Token.END = c := by injection h
      rfl
  · rw [if_neg hm] at h
    cases h

set_option maxRecDepth 1000000

theorem countOf_nil (c : Token) : countOf [] c = 0 := rfl

/-- Claim C1: for every corpus and non-empty prefix, `completions(prefix)` maps
each continuation token `t` (a word, or `END` at line end) to an `NGram` whose
count equals the number of corpus Locations at which the tokens of the prefix
occur consecutively immediately followed by `t`; in particular the four maps
computed on the corpus built from the single line
"fox fox fox. fox fox" are exactly the ones of the claim. -/
theorem claim_C1_completions_count :
    (∀ (t : NGramTable) (start : List Token) (c : Token), start ≠ [] → c.truthy = true →
      countOf (t.completions start) c
        = ((t.allLocs.filter (fun l => l.next_word start == some c)).length : ℚ))
    ∧ (foxT.completions [Token.word "fox"]).map (fun p => (p.1, p.2.count))
        = [(Token.word "fox", 2), (Token.word "fox.", 1), (Token.END, 1)]
    ∧ (foxT.completions [Token.word "fox", Token.word "fox"]).map (fun p => (p.1, p.2.count))
        = [(Token.word "fox.", 1), (Token.END, 1)]
    ∧ (foxT.completions [Token.word "fox.", Token.word "fox"]).map (fun p => (p.1, p.2.count))
        = [(Token.word "fox", 1)]
    ∧ (foxT.completions
          [Token.word "fox.", Token.word "fox", Token.word "fox"]).map (fun p => (p.1, p.2.count))
        = [(Token.END, 1)] := by
  refine ⟨?_, by with_unfolding_all decide, by with_unfolding_all decide,
    by with_unfolding_all decide, by with_unfolding_all decide⟩
  intro t start c hs hc
  cases start with
  | nil => exact absurd rfl hs
  | cons s0 rest =>
    cases s0 with
    | word w =>
      simp only [NGramTable.completions]
      rw [countOf_completions_foldl _ _ hc, countOf_nil]
      simp only [NGramTable.locsFor]
      rw [List.filter_filter]
      have : ∀ l ∈ t.allLocs,
          ((l.next_word (Token.word w :: rest) == some c) && (l.word == w))
            = (l.next_word (Token.word w :: rest) == some c) := by
        intro l _
        by_cases hnw : l.next_word (Token.word w :: rest) = some c
        · have hw : l.word = w := next_word_word_head hnw
          simp [hnw, hw]
        · simp [hnw]
      rw [List.filter_congr this]
      simp
    | END =>
      simp only [NGramTable.completions, NGramTable.locsFor, List.foldl_nil]
      rw [countOf_nil]
      have : ∀ l ∈ t.allLocs,
          (l.next_word (Token.END :: rest) == some c) = false := by
        intro l _
        rw [next_word_END_head]
        rfl
      rw [List.filter_congr this]
      simp

/-- Witness for C1: the general count theorem applied to the fox corpus,
prefix `("fox",)` and continuation `END`. -/
theorem claim_C1_witness :
    countOf (foxT.completions [Token.word "fox"]) Token.END
      = ((foxT.allLocs.filter
          (fun l => l.next_word [Token.word "fox"] == some Token.END)).length : ℚ) :=
  claim_C1_completions_count.1 foxT [Token.word "fox"] Token.END (by decide) (by decide)

theorem completions_count_ge_one (t : NGramTable) (start : List Token) :
    ∀ p ∈ t.completions start, 1 ≤ p.2.count := by
  cases start with
  | nil => intro p hp; simp [NGramTable.completions] at hp
  | cons s0 rest =>
    exact completions_foldl_count_ge (s0 :: rest) (t.locsFor s0) []
      (by intro p hp; simp at hp)

theorem totalCount_pos (t : NGramTable) (start : List Token)
    (hne : t.completions start ≠ []) : 0 < totalCount (t.completions start) := by
  have h1 := completions_count_ge_one t start
  unfold totalCount
  apply List.sum_pos
  · intro a ha
    rw [List.mem_map] at ha
    obtain ⟨p, hp, rfl⟩ := ha
    exact lt_of_lt_of_le zero_lt_one (h1 p hp)
  · simpa using hne

theorem sum_map_count_div (L : List (Token × NGram)) (q : ℚ) :
    (L.map (fun p => p.2.count / q)).sum = totalCount L / q := by
  induction L with
  | nil => simp [totalCount]
  | cons p rest ih => simp [totalCount, add_div] at ih ⊢; rw [ih]

/-- Claim C2: for every corpus and non-empty prefix `p`, the counts of
`completions(p)` sum to the number of corpus occurrences of `p` immediately
followed by any token; `normalized_completions(p)` sums to 1 whenever it is
non-empty (exactly, in `ℚ`), and is the empty map when there are no
completions or the count total is non-positive. -/
theorem claim_C2_completions_sums :
    ∀ (t : NGramTable) (start : List Token), NoEmptyWords t → start ≠ [] →
      (totalCount (t.completions start)
        = ((t.allLocs.filter (fun l => (l.next_word start).isSome)).length : ℚ))
      ∧ (t.normalized_completions start ≠ [] →
          ((t.normalized_completions start).map (fun p => p.2)).sum = 1)
      ∧ (t.completions start = [] ∨ totalCount (t.completions start) ≤ 0 →
          t.normalized_completions start = []) := by
  intro t start hnew hs
  refine ⟨?_, ?_, ?_⟩
  · cases start with
    | nil => exact absurd rfl hs
    | cons s0 rest =>
      cases s0 with
      | word w =>
        simp only [NGramTable.completions]
        rw [totalCount_completions_foldl]
        simp only [totalCount, List.map_nil, List.sum_nil, zero_add, NGramTable.locsFor]
        rw [List.filter_filter]
        have h1 : ∀ l ∈ t.allLocs,
            ((((l.next_word (Token.word w :: rest)).map Token.truthy).getD false)
              && (l.word == w))
              = (((l.next_word (Token.word w :: rest)).map Token.truthy).getD false) := by
          intro l _
          rcases hnw : l.next_word (Token.word w :: rest) with _ | c
          · simp
          · have hw : l.word = w := next_word_word_head hnw
            simp [hw]
        rw [List.filter_congr h1]
        have h2 : ∀ l ∈ t.allLocs,
            (((l.next_word (Token.word w :: rest)).map Token.truthy).getD false)
              = (l.next_word (Token.word w :: rest)).isSome := by
          intro l hl
          rcases hnw : l.next_word (Token.word w :: rest) with _ | c
          · simp
          · have := next_word_truthy hnew hl hnw
            simp [this]
        rw [List.filter_congr h2]
      | END =>
        simp only [NGramTable.completions, NGramTable.locsFor, List.foldl_nil]
        have h3 : ∀ l ∈ t.allLocs,
            (l.next_word (Token.END :: rest)).isSome = false := by
          intro l _
          rw [next_word_END_head]
          rfl
        rw [List.filter_congr h3]
        simp [totalCount]
  · intro hne
    by_cases h0 : totalCount (t.completions start) = 0
    · exfalso
      apply hne
      simp [NGramTable.normalized_completions, h0]
    · have hr : t.normalized_completions start
          = (t.completions start).map
            (fun p => (p.1, p.2.count / totalCount (t.completions start))) := by
        simp [NGramTable.normalized_completions, h0]
      rw [hr, List.map_map]
      have : ((t.completions start).map
          (fun p => p.2.count / totalCount (t.completions start))).sum
          = totalCount (t.completions start) / totalCount (t.completions start) :=
        sum_map_count_div _ _
      simpa using this.trans (div_self h0)
  · intro h
    rcases h with hc | hle
    · simp [NGramTable.normalized_completions, hc, totalCount]
    · by_cases hc : t.completions start = []
      · simp [NGramTable.normalized_completions, hc, totalCount]
      · exact absurd hle (not_le.mpr (totalCount_pos t start hc))

/-- Witness for C2: the sum theorem applied to the fox corpus and the
prefix `("fox",)`. -/
theorem claim_C2_witness :
    totalCount (foxT.completions [Token.word "fox"])
      = ((foxT.allLocs.filter
          (fun l => (l.next_word [Token.word "fox"]).isSome)).length : ℚ) :=
  (claim_C2_completions_sums foxT [Token.word "fox"] (by decide) (by decide)).1

theorem wriGo_none_le {α : Type} (w : α → ℚ) (S : ℚ) :
    ∀ (xs : List α) (c : ℚ), xs ≠ [] → wriGo w S xs c = none →
      0 ≤ c - (xs.map w).sum := by
  intro xs
  induction xs with
  | nil => intro c h; exact absurd rfl h
  | cons x ys ih =>
    intro c _ hgo
    simp only [wriGo] at hgo
    by_cases hlt : c - w x < 0
    · rw [if_pos hlt] at hgo; cases hgo
    · rw [if_neg hlt] at hgo
      cases ys with
      | nil => simpa using not_lt.mp hlt
      | cons y zs =>
        have := ih (c - w x) (by simp) hgo
        simp only [List.map_cons, List.sum_cons] at this ⊢
        linarith

theorem wriGo_some_spec {α : Type} (w : α → ℚ) (S : ℚ) :
    ∀ (xs : List α) (c : ℚ) (x : α) (p : ℚ),
      wriGo w S xs c = some (x, p) →
      ∃ i, ∃ h : i < xs.length, x = xs.get ⟨i, h⟩ ∧ p = w x / S
        ∧ c - ((xs.take (i + 1)).map w).sum < 0
        ∧ ∀ j, j < i → 0 ≤ c - ((xs.take (j + 1)).map w).sum := by
  intro xs
  induction xs with
  | nil => intro c x p h; cases h
  | cons y ys ih =>
    intro c x p hgo
    simp only [wriGo] at hgo
    by_cases hlt : c - w y < 0
    · rw [if_pos hlt] at hgo
      obtain ⟨rfl, rfl⟩ : y = x ∧ w y / S = p := by
        constructor <;> [injection hgo with h1; injection hgo with h1] <;>
          [exact congrArg Prod.fst h1; exact congrArg Prod.snd h1]
      refine ⟨0, by simp, by simp, rfl, by simpa using hlt, by intro j hj; cases hj⟩
    · rw [if_neg hlt] at hgo
      obtain ⟨i, hi, hx, hp, hneg, hpre⟩ := ih (c - w y) x p hgo
      refine ⟨i + 1, by simpa using Nat.succ_lt_succ hi, by simpa using hx, hp, ?_, ?_⟩
      · simp only [List.take_succ_cons, List.map_cons, List.sum_cons]
        linarith
      · intro j hj
        cases j with
        | zero => simpa using not_lt.mp hlt
        | succ j' =>
          have := hpre j' (Nat.lt_of_succ_lt_succ hj)
          simp only [List.take_succ_cons, List.map_cons, List.sum_cons]
          linarith

/-- Claim C7: weighted selection returns no result exactly when the collection
is empty or the weight sum is non-positive; otherwise it walks the items
subtracting weights from `r * total` until it goes negative and returns the
first such item with probability `weight/total`; when the walk finishes
non-negative it returns the last item with the sentinel probability `-1`; and
under a draw in `[0,1)`, a positive sum and a nonempty collection the result
is always a genuine item with its `weight/total` probability. -/
theorem claim_C7_weighted_random_item {α : Type} (items : List α) (w : α → ℚ)
    (o : Nat → ℚ) (k : Nat) :
    ((weighted_random_item items w o k).1 = none ↔ items = [] ∨ (items.map w).sum ≤ 0)
    ∧ (∀ x p, (weighted_random_item items w o k).1 = some (x, p) →
        (∃ i, ∃ h : i < items.length, x = items.get ⟨i, h⟩
          ∧ p = w x / (items.map w).sum
          ∧ o k * (items.map w).sum - ((items.take (i + 1)).map w).sum < 0
          ∧ ∀ j, j < i → 0 ≤ o k * (items.map w).sum - ((items.take (j + 1)).map w).sum)
        ∨ (p = -1 ∧ (∃ h : items ≠ [], x = items.getLast h)
            ∧ 0 ≤ o k * (items.map w).sum - (items.map w).sum))
    ∧ (o k < 1 → 0 < (items.map w).sum → items ≠ [] →
        ∃ x p, (weighted_random_item items w o k).1 = some (x, p)
          ∧ p = w x / (items.map w).sum ∧ x ∈ items) := by
  refine ⟨?_, ?_, ?_⟩
  · cases items with
    | nil => simp [weighted_random_item]
    | cons x xs =>
      simp only [weighted_random_item, List.map_cons, List.sum_cons]
      by_cases hS : w x + (List.map w xs).sum ≤ 0
      · rw [if_pos hS]
        simp [hS]
      · rw [if_neg hS]
        cases hgo : wriGo w (w x + (List.map w xs).sum) (x :: xs)
            (o k * (w x + (List.map w xs).sum)) with
        | none => simp [hS]
        | some q => simp [hS]
  · intro x' p' hres
    cases items with
    | nil => simp [weighted_random_item] at hres
    | cons x xs =>
      simp only [weighted_random_item, List.map_cons, List.sum_cons] at hres ⊢
      by_cases hS : w x + (List.map w xs).sum ≤ 0
      · rw [if_pos hS] at hres; cases hres
      · rw [if_neg hS] at hres
        cases hgo : wriGo w (w x + (List.map w xs).sum) (x :: xs)
            (o k * (w x + (List.map w xs).sum)) with
        | some q =>
          rw [hgo] at hres
          simp only at hres
          have hq : q = (x', p') := by injection hres
          subst hq
          have hspec := wriGo_some_spec w (w x + (List.map w xs).sum) (x :: xs)
            (o k * (w x + (List.map w xs).sum)) x' p' hgo
          simp only [List.map_cons, List.sum_cons] at hspec
          exact Or.inl hspec
        | none =>
          rw [hgo] at hres
          simp only at hres
          have hq : ((x :: xs).getLastD x, (-1 : ℚ)) = (x', p') := by
            injection hres
          rw [Prod.mk.injEq] at hq
          obtain ⟨hx', hp'⟩ := hq
          subst hx'
          subst hp'
          have hle := wriGo_none_le w (w x + (List.map w xs).sum) (x :: xs)
            (o k * (w x + (List.map w xs).sum)) (by simp) hgo
          simp only [List.map_cons, List.sum_cons] at hle
          refine Or.inr ⟨rfl, ⟨by simp, ?_⟩, hle⟩
          rw [List.getLastD_eq_getLast?, List.getLast?_eq_getLast (x :: xs) (by simp)]
          rfl
  · intro h1 hpos hne
    cases items with
    | nil => exact absurd rfl hne
    | cons x xs =>
      simp only [List.map_cons, List.sum_cons] at h1 hpos ⊢
      simp only [weighted_random_item, List.map_cons, List.sum_cons]
      rw [if_neg (not_le.mpr hpos)]
      cases hgo : wriGo w (w x + (List.map w xs).sum) (x :: xs)
          (o k * (w x + (List.map w xs).sum)) with
      | none =>
        exfalso
        have hle := wriGo_none_le w (w x + (List.map w xs).sum) (x :: xs)
          (o k * (w x + (List.map w xs).sum)) (by simp) hgo
        simp only [List.map_cons, List.sum_cons] at hle
        have hlt : o k * (w x + (List.map w xs).sum) < w x + (List.map w xs).sum := by
          calc o k * (w x + (List.map w xs).sum) < 1 * (w x + (List.map w xs).sum) :=
                mul_lt_mul_of_pos_right h1 hpos
            _ = w x + (List.map w xs).sum := one_mul _
        linarith
      | some q =>
        obtain ⟨a, b⟩ := q
        obtain ⟨i, hi, hx, hp, _, _⟩ := wriGo_some_spec w (w x + (List.map w xs).sum)
          (x :: xs) (o k * (w x + (List.map w xs).sum)) a b hgo
        refine ⟨a, b, rfl, by simpa using hp, ?_⟩
        rw [hx]
        exact List.get_mem _ _ hi

/-- Witness for C7: the selection theorem applied to the two-element weighted
collection `[1, 2]` with identity weights and the zero draw. -/
theorem claim_C7_witness :
    ∃ x p, (weighted_random_item [(1 : Nat), 2] (fun n => (n : ℚ)) o0 0).1 = some (x, p)
      ∧ p = (x : ℚ) / (([(1 : Nat), 2].map (fun n => (n : ℚ))).sum)
      ∧ x ∈ [(1 : Nat), 2] :=
  (claim_C7_weighted_random_item [(1 : Nat), 2] (fun n => (n : ℚ)) o0 0).2.2
    (by norm_num [o0]) (by norm_num) (by simp)

theorem smLoop_ngrams_le (s : MarkovSampler) (n : Nat) (maxLen : Int)
    (startToks : List Token) (o : Nat → ℚ) :
    ∀ (fuel i : Nat) (compls : List Token) (ngrams : List NGram) (k : Nat),
      ((smLoop s n maxLen startToks o fuel i compls ngrams k).1.2).length
        ≤ ngrams.length + fuel := by
  intro fuel
  induction fuel with
  | zero => intro i compls ngrams k; simp [smLoop]
  | succ f ih =>
    intro i compls ngrams k
    simp only [smLoop]
    split
    · exact Nat.le_add_right _ _
    · rename_i g k' heq
      split
      · show (ngrams ++ [g]).length ≤ ngrams.length + (f + 1)
        rw [List.length_append]
        simp only [List.length_cons, List.length_nil]
        omega
      · refine le_trans (ih (i + 1) (compls ++ [g.compl]) (ngrams ++ [g]) k') ?_
        rw [List.length_append]
        simp only [List.length_cons, List.length_nil]
        omega

theorem smLoop_compls_isPre (s : MarkovSampler) (n : Nat) (maxLen : Int)
    (startToks : List Token) (o : Nat → ℚ) :
    ∀ (fuel i : Nat) (compls : List Token) (ngrams : List NGram) (k : Nat),
      compls <+: (smLoop s n maxLen startToks o fuel i compls ngrams k).1.1 := by
  intro fuel
  induction fuel with
  | zero => intro i compls ngrams k; simp [smLoop]
  | succ f ih =>
    intro i compls ngrams k
    simp only [smLoop]
    split
    · exact List.prefix_rfl
    · rename_i g k' heq
      split
      · exact List.prefix_rfl
      · exact (List.prefix_append compls [g.compl]).trans
          (ih (i + 1) (compls ++ [g.compl]) (ngrams ++ [g]) k')

/-- Claim C8: a generation run performs at most `5*max_len` extension steps
(so the provenance list never exceeds `5*max_len` loop entries plus the one
possible start gram) and always terminates; in particular on the corpus of
the single one-word line "a" the run returns after a single step. -/
theorem claim_C8_sample_many_bound :
    (∀ (s : MarkovSampler) (start : String) (maxLen : Int) (o : Nat → ℚ) (k : Nat),
      ((s.sample_many start maxLen o k).1.2).length ≤ (5 * maxLen).toNat + 1)
    ∧ ((⟨2, mkTable [["a"]]⟩ : MarkovSampler).sample_many "" 20 o0 0).1
        = ([Token.word "a", Token.END],
           [⟨[Token.word "a", Token.END], 1, ⟨[["a"]], 0, 0⟩⟩]) := by
  constructor
  · intro s start maxLen o k
    simp only [MarkovSampler.sample_many]
    split
    · exact le_trans (smLoop_ngrams_le _ _ _ _ _ _ _ _ _ _)
        (by simp only [List.length_nil]; omega)
    · exact le_trans (smLoop_ngrams_le _ _ _ _ _ _ _ _ _ _)
        (by simp only [List.length_cons, List.length_nil]; omega)
  · with_unfolding_all decide

theorem pyChoice_mem_or_dflt {α : Type} (xs : List α) (r : ℚ) (d : α) :
    pyChoice xs r d ∈ xs ∨ pyChoice xs r d = d := by
  unfold pyChoice
  by_cases h : (Rat.floor (r * xs.length)).toNat < xs.length
  · left
    rw [List.getD_eq_getElem xs d h]
    exact List.getElem_mem h
  · right
    exact List.getD_eq_default xs d (not_lt.mp h)

theorem lineStarts_idx (t : NGramTable) : ∀ l ∈ t.lineStarts, l.idx = 0 := by
  intro l hl
  unfold NGramTable.lineStarts at hl
  rw [mem_catAppend] at hl
  obtain ⟨u, hu, hlu⟩ := hl
  rw [List.mem_map] at hu
  obtain ⟨src, _, rfl⟩ := hu
  rw [List.mem_map] at hlu
  obtain ⟨li, _, rfl⟩ := hlu
  rfl

/-- Claim C10: with an empty start, the returned token sequence begins with the
words of the drawn start n-gram verbatim, and when the chosen start line has
fewer than the effective order `n` tokens those words (hence the output)
contain the `END` sentinel itself. -/
theorem claim_C10_start_gram_words :
    ∀ (s : MarkovSampler) (maxLen : Int) (o : Nat → ℚ) (k : Nat),
      ((s.table.get_start_gram (effOrder s.n maxLen).toNat o k).1.words
          <+: (s.sample_many "" maxLen o k).1.1)
      ∧ ((pyChoice s.table.lineStarts (o k) ⟨[], 0, 0⟩).line.length
            < (effOrder s.n maxLen).toNat →
          Token.END ∈ (s.table.get_start_gram (effOrder s.n maxLen).toNat o k).1.words
            ∧ Token.END ∈ (s.sample_many "" maxLen o k).1.1) := by
  intro s maxLen o k
  have h0 : (pySplit "").map Token.word = [] := by decide
  have hmany : s.sample_many "" maxLen o k
      = smLoop s (effOrder s.n maxLen).toNat maxLen [] o (5 * maxLen).toNat 0
        (s.table.get_start_gram (effOrder s.n maxLen).toNat o k).1.words
        [(s.table.get_start_gram (effOrder s.n maxLen).toNat o k).1]
        (s.table.get_start_gram (effOrder s.n maxLen).toNat o k).2 := by
    simp only [MarkovSampler.sample_many, h0]
  have hpre : (s.table.get_start_gram (effOrder s.n maxLen).toNat o k).1.words
      <+: (s.sample_many "" maxLen o k).1.1 := by
    rw [hmany]
    exact smLoop_compls_isPre _ _ _ _ _ _ _ _ _ _
  refine ⟨hpre, ?_⟩
  intro hshort
  have hidx : (pyChoice s.table.lineStarts (o k) ⟨[], 0, 0⟩).idx = 0 := by
    rcases pyChoice_mem_or_dflt s.table.lineStarts (o k) ⟨[], 0, 0⟩ with hm | hd
    · exact lineStarts_idx s.table _ hm
    · rw [hd]
  have hwords : (s.table.get_start_gram (effOrder s.n maxLen).toNat o k).1.words
      = ((pyChoice s.table.lineStarts (o k) ⟨[], 0, 0⟩).line.map Token.word
          ++ [Token.END]).take (effOrder s.n maxLen).toNat := by
    simp only [NGramTable.get_start_gram, NGram.from_loc, hidx, List.drop_zero]
  have hmem : Token.END
      ∈ (s.table.get_start_gram (effOrder s.n maxLen).toNat o k).1.words := by
    rw [hwords]
    rw [List.take_of_length_le (by simp; omega)]
    simp
  exact ⟨hmem, hpre.subset hmem⟩

/-- Witness for C10: a sampler of order 3 over the single one-word line "a";
the chosen start line is shorter than the effective order, so the start gram
words and the output contain `END`. -/
theorem claim_C10_witness :
    Token.END ∈ (((⟨3, mkTable [["a"]]⟩ : MarkovSampler)).table.get_start_gram
        (effOrder (3 : Int) 20).toNat o0 0).1.words
      ∧ Token.END ∈ (((⟨3, mkTable [["a"]]⟩ : MarkovSampler)).sample_many "" 20 o0 0).1.1 :=
  (claim_C10_start_gram_words ⟨3, mkTable [["a"]]⟩ 20 o0 0).2 (by with_unfolding_all decide)

/-- Claim C3 (amended): the `try_end` flag of iteration `i` is set exactly
when the iteration index — the number of extension steps already performed,
not the running length of the generated sequence — has reached `max_len`;
and whenever `try_end` is set and `END` is among the completions, `sample`
returns the `END` completion with count 1 immediately, before any weighted
draw and consuming no randomness. -/
theorem claim_C3_amended :
    (∀ (i : Nat) (maxLen : Int), tryEndArg i maxLen = true ↔ maxLen ≤ (i : Int))
    ∧ (∀ (s : MarkovSampler) (start : List Token) (disf : List (Token × ℚ))
        (o : Nat → ℚ) (k : Nat) (g : NGram),
        alLookup (s.table.completions start) Token.END = some g →
        s.sample start true disf o k = (some ⟨g.words, 1, g.loc⟩, k)) := by
  constructor
  · intro i maxLen; simp [tryEndArg]
  · intro s start disf o k g hg
    simp only [MarkovSampler.sample, if_true, hg]

/-- Witness for C3: on the fox corpus with `try_end` set, `END` is among the
completions of `("fox",)` and `sample` returns it at once. -/
theorem claim_C3_witness :
    (⟨2, foxT⟩ : MarkovSampler).sample [Token.word "fox"] true [] o0 0
      = (some ⟨[Token.word "fox", Token.END], 1,
          ⟨[pySplit "fox fox fox. fox fox"], 0, 4⟩⟩, 0) :=
  claim_C3_amended.2 ⟨2, foxT⟩ [Token.word "fox"] [] o0 0
    ⟨[Token.word "fox", Token.END], 1, ⟨[pySplit "fox fox fox. fox fox"], 0, 4⟩⟩
    (by with_unfolding_all decide)

/-- Counterexample for C3: corpus `["x c d", "y c"]`, seed "a b c" (running
length 3) and `max_len = 3`.  At the first iteration the running length has
already reached `max_len`, but the code passes `try_end = (0 >= 3) = false`
and samples the word "d"; the claim's running-length variant of the loop
would take the `END` completion immediately and produce no token at all. -/
theorem claim_C3_counterexample :
    ((⟨2, mkTable [["x c d", "y c"]]⟩ : MarkovSampler).sample_many "a b c" 3 o0 0).1.1
        = [Token.word "d"]
      ∧ (sampleManyLenFlag (⟨2, mkTable [["x c d", "y c"]]⟩ : MarkovSampler)
          "a b c" 3 o0 0).1.1 = []
      ∧ (pySplit "a b c").length = 3 :=
  ⟨by with_unfolding_all decide, by with_unfolding_all decide, by decide⟩

theorem rev_range'_eq_map : ∀ m : Nat,
    (List.range' 1 m).reverse = (List.range m).map (fun j => m - j) := by
  intro m
  induction m with
  | zero => simp
  | succ m ih =>
    rw [List.range'_concat, List.reverse_append, List.range_succ_eq_map]
    simp only [List.reverse_cons, List.reverse_nil, List.nil_append, List.map_cons,
      List.map_map, List.singleton_append, Nat.sub_zero, ih]
    rw [List.cons.injEq]
    refine ⟨by omega, ?_⟩
    congr 1
    funext j
    simp only [Function.comp]
    omega

/-- Claim C4 (amended): one extension step tries `sample` at context lengths
`n-1` down to `1` — that is, orders `n` down to `2`, not down to order 1 —
stopping at the first length that yields a token; and the disfavor map used
at every attempt within a step is computed once per step as the normalized
completions of the length-`n` suffix of the text when the text has at least
`n` tokens, and is empty otherwise. -/
theorem claim_C4_amended :
    (∀ n : Nat, fallbackKs n = (List.range (n - 1)).map (fun j => n - 1 - j))
    ∧ (∀ (s : MarkovSampler) (k0 : Nat) (ks : List Nat) (text : List Token)
        (tryEnd : Bool) (disf : List (Token × ℚ)) (o : Nat → ℚ) (k : Nat),
        (∀ g k', s.sample (suffix k0 text) tryEnd disf o k = (some g, k') →
          trySample s (k0 :: ks) text tryEnd disf o k = (some g, k'))
        ∧ (∀ k', s.sample (suffix k0 text) tryEnd disf o k = (none, k') →
          trySample s (k0 :: ks) text tryEnd disf o k
            = trySample s ks text tryEnd disf o k'))
    ∧ (∀ (t : NGramTable) (n : Nat) (text : List Token),
        (n ≤ text.length →
          stepDisfavor t n text = t.normalized_completions (suffix n text))
        ∧ (text.length < n → stepDisfavor t n text = [])) := by
  refine ⟨?_, ?_, ?_⟩
  · intro n
    exact rev_range'_eq_map (n - 1)
  · intro s k0 ks text tryEnd disf o k
    constructor
    · intro g k' h
      simp only [trySample, h]
    · intro k' h
      simp only [trySample, h]
  · intro t n text
    constructor
    · intro h
      simp only [stepDisfavor, if_pos h]
    · intro h
      simp only [stepDisfavor, if_neg (not_le.mpr h)]

/-- Witness for C4: with one token of text and effective order 2 the text is
shorter than the order, so the per-step disfavor map is empty. -/
theorem claim_C4_witness :
    stepDisfavor foxT 2 [Token.word "fox"] = [] :=
  (claim_C4_amended.2.2 foxT 2 [Token.word "fox"]).2 (by decide)

/-- Counterexample for C4: for effective order 3 the code attempts exactly
the context lengths [2, 1]: there is no order-1 attempt with an empty
context (the claim's "down to order 1" would add context length 0), and no
attempt with a full length-3 context either. -/
theorem claim_C4_counterexample :
    fallbackKs 3 = [2, 1] ∧ fallbackKs 3 ≠ [2, 1, 0] ∧ fallbackKs 3 ≠ [3, 2, 1] :=
  ⟨by decide, by decide, by decide⟩

/-- Claim C9 (amended): absence of a result is a first-class value (`sample`
returns `none` when there are no completions), and nothing is validated or
fatal at construction or call entry: an order below 2 is silently clamped to
at least 2 by `effOrder` inside each `sample_many` call, and a non-positive
`max_len` simply runs zero extension steps — with a non-empty start the call
returns the empty generation, and with an empty start it returns exactly the
drawn start-gram's words together with its single provenance entry. -/
theorem claim_C9_amended :
    (∀ n maxLen : Int, 2 ≤ effOrder n maxLen)
    ∧ (∀ (s : MarkovSampler) (start : List Token) (te : Bool)
        (disf : List (Token × ℚ)) (o : Nat → ℚ) (k : Nat),
        s.table.completions start = [] → s.sample start te disf o k = (none, k))
    ∧ (∀ (s : MarkovSampler) (start : String) (maxLen : Int) (o : Nat → ℚ) (k : Nat),
        maxLen ≤ 0 → pySplit start ≠ [] →
          s.sample_many start maxLen o k = (([], []), k))
    ∧ (∀ (s : MarkovSampler) (start : String) (maxLen : Int) (o : Nat → ℚ) (k : Nat),
        maxLen ≤ 0 → pySplit start = [] →
          s.sample_many start maxLen o k
            = (((s.table.get_start_gram (effOrder s.n maxLen).toNat o k).1.words,
                [(s.table.get_start_gram (effOrder s.n maxLen).toNat o k).1]),
               (s.table.get_start_gram (effOrder s.n maxLen).toNat o k).2)) := by
  refine ⟨?_, ?_, ?_, ?_⟩
  · intro n maxLen
    exact le_max_right _ _
  · intro s start te disf o k h
    cases te <;> simp [MarkovSampler.sample, h, alLookup, weighted_random_item]
  · intro s start maxLen o k hml hst
    have hf : (5 * maxLen).toNat = 0 := by omega
    cases hsp : pySplit start with
    | nil => exact absurd hsp hst
    | cons w ws =>
      simp only [MarkovSampler.sample_many, hsp, List.map_cons, hf, smLoop]
  · intro s start maxLen o k hml hsp
    have hf : (5 * maxLen).toNat = 0 := by omega
    simp only [MarkovSampler.sample_many, hsp, List.map_nil, hf, smLoop]

/-- Witness for C9: with order 0 and `max_len = 0` on a non-empty start,
`sample_many` returns the empty generation normally. -/
theorem claim_C9_witness :
    (⟨0, foxT⟩ : MarkovSampler).sample_many "hi" 0 o0 0 = (([], []), 0) :=
  claim_C9_amended.2.2.1 ⟨0, foxT⟩ "hi" 0 o0 0 (by omega) (by decide)

/-- Counterexample for C9: neither of the claimed fatal contract violations
exists in the code.  A primary order below 2 is stored unchanged by the
constructor, clamped to 2 only inside `sample_many`, and the call returns an
ordinary empty result; and a non-positive `max_len` is not rejected either:
with an empty start, `sample_many` with `max_len = 0` returns the drawn
start-gram's (nonempty) words with one provenance entry, a normal value. -/
theorem claim_C9_counterexample :
    (MarkovSampler.mk 0 foxT).n = 0 ∧ effOrder 0 20 = 2
      ∧ (⟨0, foxT⟩ : MarkovSampler).sample_many "nothere" 20 o0 0 = (([], []), 0)
      ∧ (⟨2, mkTable [["a"]]⟩ : MarkovSampler).sample_many "" 0 o0 0
          = (([Token.word "a", Token.END],
              [⟨[Token.word "a", Token.END], 1, ⟨[["a"]], 0, 0⟩⟩]), 1) :=
  ⟨rfl, by decide, by with_unfolding_all decide, by with_unfolding_all decide⟩

theorem pyMinBy_mem {α : Type} (f : α → Nat) :
    ∀ (xs : List α) (best : α), pyMinBy f best xs ∈ best :: xs := by
  intro xs
  induction xs with
  | nil => intro best; simp [pyMinBy]
  | cons x xs ih =>
    intro best
    simp only [pyMinBy]
    by_cases h : f x < f best
    · rw [if_pos h]
      have := ih x
      simp at this ⊢
      tauto
    · rw [if_neg h]
      have := ih best
      simp at this ⊢
      tauto

theorem pyMinBy_le {α : Type} (f : α → Nat) :
    ∀ (xs : List α) (best : α),
      f (pyMinBy f best xs) ≤ f best ∧ ∀ x ∈ xs, f (pyMinBy f best xs) ≤ f x := by
  intro xs
  induction xs with
  | nil => intro best; simp [pyMinBy]
  | cons x xs ih =>
    intro best
    simp only [pyMinBy]
    by_cases h : f x < f best
    · rw [if_pos h]
      obtain ⟨h1, h2⟩ := ih x
      refine ⟨le_trans h1 (le_of_lt h), ?_⟩
      intro y hy
      rcases List.mem_cons.mp hy with rfl | hy
      · exact h1
      · exact h2 y hy
    · rw [if_neg h]
      obtain ⟨h1, h2⟩ := ih best
      refine ⟨h1, ?_⟩
      intro y hy
      rcases List.mem_cons.mp hy with rfl | hy
      · exact le_trans h1 (not_lt.mp h)
      · exact h2 y hy

theorem pyMinBy_first {α : Type} (f : α → Nat) :
    ∀ (xs : List α) (best : α),
      ∃ l1 l2, best :: xs = l1 ++ (pyMinBy f best xs) :: l2
        ∧ ∀ y ∈ l1, f (pyMinBy f best xs) < f y := by
  intro xs
  induction xs with
  | nil => intro best; exact ⟨[], [], rfl, by simp⟩
  | cons x xs ih =>
    intro best
    simp only [pyMinBy]
    by_cases h : f x < f best
    · rw [if_pos h]
      obtain ⟨l1, l2, heq, hlt⟩ := ih x
      refine ⟨best :: l1, l2, congrArg (best :: ·) heq, ?_⟩
      intro y hy
      rcases List.mem_cons.mp hy with rfl | hy
      · exact lt_of_le_of_lt (pyMinBy_le f xs x).1 h
      · exact hlt y hy
    · rw [if_neg h]
      obtain ⟨l1, l2, heq, hlt⟩ := ih best
      cases l1 with
      | nil =>
        rw [List.nil_append, List.cons.injEq] at heq
        refine ⟨[], x :: xs, congrArg (· :: x :: xs) heq.1, by simp⟩
      | cons b l1' =>
        rw [List.cons_append, List.cons.injEq] at heq
        obtain ⟨rfl, hxs⟩ := heq
        refine ⟨best :: x :: l1', l2, congrArg (fun t => best :: x :: t) hxs, ?_⟩
        intro y hy
        have hb : f (pyMinBy f best xs) < f best := hlt best (by simp)
        rcases List.mem_cons.mp hy with rfl | hy
        · exact hb
        · rcases List.mem_cons.mp hy with rfl | hy
          · exact lt_of_lt_of_le hb (not_lt.mp h)
          · exact hlt y (by simp [hy])

/-- Claim C5 (amended): `sample_best` runs `sample_many` independently `times`
times; it discards the trials whose provenance (ngram) list is empty — not
the trials producing zero tokens — and among the survivors returns the first
one whose token length is closest to `max_len` (earliest trial on ties);
it returns the fixed fallback phrase with empty provenance exactly when all
trials have an empty provenance list. -/
theorem claim_C5_amended :
    ∀ (s : MarkovSampler) (start : String) (maxLen : Int) (times : Nat)
      (o : Nat → ℚ) (k : Nat),
    ((runTrials s start maxLen o times k).1.filter (fun sm => !sm.2.isEmpty) = [] →
      s.sample_best start maxLen times o k
        = ((joinTokens (if start = "" then [Token.word FALLBACK]
            else Token.word start :: [Token.word FALLBACK]), []),
           (runTrials s start maxLen o times k).2))
    ∧ (∀ sv0 rest,
        (runTrials s start maxLen o times k).1.filter (fun sm => !sm.2.isEmpty)
          = sv0 :: rest →
        (s.sample_best start maxLen times o k
          = ((joinTokens (if start = "" then (pyMinBy (sbKey maxLen) sv0 rest).1
              else Token.word start :: (pyMinBy (sbKey maxLen) sv0 rest).1),
              (pyMinBy (sbKey maxLen) sv0 rest).2),
             (runTrials s start maxLen o times k).2))
        ∧ pyMinBy (sbKey maxLen) sv0 rest ∈ sv0 :: rest
        ∧ (∀ x ∈ sv0 :: rest,
            sbKey maxLen (pyMinBy (sbKey maxLen) sv0 rest) ≤ sbKey maxLen x)
        ∧ ∃ l1 l2, sv0 :: rest = l1 ++ (pyMinBy (sbKey maxLen) sv0 rest) :: l2
            ∧ ∀ y ∈ l1, sbKey maxLen (pyMinBy (sbKey maxLen) sv0 rest)
                < sbKey maxLen y) := by
  intro s start maxLen times o k
  constructor
  · intro h
    simp only [MarkovSampler.sample_best, h]
  · intro sv0 rest h
    refine ⟨?_, pyMinBy_mem _ _ _, ?_, pyMinBy_first _ _ _⟩
    · simp only [MarkovSampler.sample_best, h]
    · intro x hx
      rcases List.mem_cons.mp hx with rfl | hx
      · exact (pyMinBy_le (sbKey maxLen) rest x).1
      · exact (pyMinBy_le (sbKey maxLen) rest sv0).2 x hx

/-- Witness for C5: on the fox corpus with the out-of-corpus start "zzz"
every trial dies immediately with empty provenance, so `sample_best` returns
the fallback phrase (prefixed by the start) with empty provenance. -/
theorem claim_C5_witness :
    (⟨2, foxT⟩ : MarkovSampler).sample_best "zzz" 20 5 o0 0
      = ((joinTokens (if ("zzz" : String) = "" then [Token.word FALLBACK]
          else Token.word "zzz" :: [Token.word FALLBACK]), []),
         (runTrials (⟨2, foxT⟩ : MarkovSampler) "zzz" 20 o0 5 0).2) :=
  (claim_C5_amended ⟨2, foxT⟩ "zzz" 20 5 o0 0).1 (by with_unfolding_all decide)

/-- Counterexample for C5: corpus `["a"]`, start "a".  Every one of the five
trials produces zero tokens (each immediately samples `END`), yet the trials
all keep a nonempty provenance list, so none is discarded and `sample_best`
returns "a" with nonempty provenance instead of the fixed fallback phrase —
refuting "returns the fallback phrase iff every trial produced zero tokens"
and "discards trials producing zero tokens". -/
theorem claim_C5_counterexample :
    (runTrials (⟨2, mkTable [["a"]]⟩ : MarkovSampler) "a" 20 o0 5 0).1.map Prod.fst
        = [[], [], [], [], []]
    ∧ ((⟨2, mkTable [["a"]]⟩ : MarkovSampler).sample_best "a" 20 5 o0 0).1.1 = some "a"
    ∧ ((⟨2, mkTable [["a"]]⟩ : MarkovSampler).sample_best "a" 20 5 o0 0).1.2 ≠ []
    ∧ "a" ≠ FALLBACK ∧ "a" ≠ "a " ++ FALLBACK :=
  ⟨by with_unfolding_all decide, by with_unfolding_all decide,
   by with_unfolding_all decide, by decide, by decide⟩

theorem pyChoice_cons_mem {α : Type} (x : α) (xs : List α) (r : ℚ) :
    pyChoice (x :: xs) r x ∈ x :: xs := by
  rcases pyChoice_mem_or_dflt (x :: xs) r x with h | h
  · exact h
  · rw [h]; simp

theorem saLoop_none (s : MarkovSampler) (q : List Token) (maxLen : Int) (times : Nat)
    (o : Nat → ℚ) :
    ∀ (Ls : List Int) (k : Nat),
      (∀ L ∈ Ls, ∀ g ∈ s.table.ngrams (pyLastN L q), g.loc.start_of_next_line = none) →
      (saLoop s q maxLen times o Ls k).1 = none := by
  intro Ls
  induction Ls with
  | nil => intro k _; simp [saLoop]
  | cons L rest ih =>
    intro k h
    simp only [saLoop]
    split
    · exact ih k (fun L' hL' => h L' (List.mem_cons_of_mem L hL'))
    · rename_i g0 gs heq
      have hmem : pyChoice (g0 :: gs) (o k) g0 ∈ s.table.ngrams (pyLastN L q) := by
        rw [heq]
        exact pyChoice_cons_mem g0 gs (o k)
      have hnone := h L (by simp) (pyChoice (g0 :: gs) (o k) g0) hmem
      rw [hnone]
      exact ih (k + 1) (fun L' hL' => h L' (List.mem_cons_of_mem L hL'))

/-- Claim C6 (amended): `sample_answer` searches the trailing `L` tokens of
the question (with `END` appended) for `L` from `order+1` down to
`min_prefix`; at each `L` with matches it picks one at random, and when that
match lies on its Source's final line it does not stop but continues with the
next smaller `L`.  It returns no result when, for every `L` in the range,
there is either no match or every match lies on its Source's final line —
in particular when no `L ≥ min_prefix` yields any corpus match. -/
theorem claim_C6_amended :
    ∀ (s : MarkovSampler) (question : String) (maxLen : Int) (times : Nat)
      (minPre : Int) (o : Nat → ℚ) (k : Nat),
      (∀ L ∈ rangeDown (s.n + 1) minPre,
        ∀ g ∈ s.table.ngrams
            (pyLastN L ((pySplit question).map Token.word ++ [Token.END])),
          g.loc.start_of_next_line = none) →
      (s.sample_answer question maxLen times minPre o k).1 = none := by
  intro s question maxLen times minPre o k h
  simp only [MarkovSampler.sample_answer]
  exact saLoop_none s _ maxLen times o _ k h

/-- Witness for C6: a question whose words never occur in the corpus matches
at no length, so `sample_answer` returns no result. -/
theorem claim_C6_witness :
    ((⟨2, mkTable [["z b", "c d", "a b"]]⟩ : MarkovSampler).sample_answer
        "q q" 20 5 2 o0 0).1 = none :=
  claim_C6_amended ⟨2, mkTable [["z b", "c d", "a b"]]⟩ "q q" 20 5 2 o0 0
    (by with_unfolding_all decide)

/-- Counterexample for C6: corpus `["z b", "c d", "a b"]`, question "a b",
order 2, `min_prefix` 2.  The largest length `L = 3` has exactly one match —
`(a, b, END)` on the corpus final line — so under the claim (stop at the
first matching `L`; final-line-only occurrence gives no result) the call
would return no result; the code instead falls through to `L = 2`, matches
`(b, END)` on the first line, and returns a result. -/
theorem claim_C6_counterexample :
    ((⟨2, mkTable [["z b", "c d", "a b"]]⟩ : MarkovSampler).sample_answer
        "a b" 20 5 2 o0 0).1.isSome = true
    ∧ (⟨2, mkTable [["z b", "c d", "a b"]]⟩ : MarkovSampler).table.ngrams
        (pyLastN 3 ((pySplit "a b").map Token.word ++ [Token.END]))
      = [⟨[Token.word "a", Token.word "b", Token.END], 1,
          ⟨[["z", "b"], ["c", "d"], ["a", "b"]], 2, 0⟩⟩]
    ∧ (⟨[["z", "b"], ["c", "d"], ["a", "b"]], 2, 0⟩ : Loc).start_of_next_line = none
    ∧ rangeDown (2 + 1) 2 = [3, 2] :=
  ⟨by with_unfolding_all decide, by with_unfolding_all decide,
   by with_unfolding_all decide, by with_unfolding_all decide⟩

end Markov
